import Mathlib

/-!
Verification of the product-discovery engine
(`product_discovery_agent/engine.py`, `sustained.py`, `constants.py`).

Strings are modelled as `List Char`; Python floats as `ℚ` (exact
arithmetic), except the logarithmic scaling helper which is modelled
over `ℝ`.  Python sets are modelled as `Finset` or as lists with
membership semantics.
-/

namespace ProductDiscovery

/-! ## Constants (`constants.py`) -/

def MIN_KEYWORD_LENGTH : Nat := 2
def MAX_KEYWORD_LENGTH : Nat := 80
def MAX_SUSTAINED_TREND_FETCH_FAILURES : Nat := 2

def QUALITY_SCORE_BASELINE : ℚ := 50
def QUALITY_POSITIVE_TOKEN_BOOST : ℚ := 8
def QUALITY_NEGATIVE_TOKEN_PENALTY : ℚ := 14
def QUALITY_SCORE_MIN : ℚ := 0
def QUALITY_SCORE_MAX : ℚ := 100

/-! ## Whitespace model

`pySpace` is the set of characters matched by Python's `\s` (with
Unicode semantics) and stripped by `str.strip()` — the two sets
coincide (both equal the `str.isspace` set). -/

def pySpace (c : Char) : Bool :=
  c = ' ' || c = '\t' || c = '\n' || c = '\r' || c = '\x0b' || c = '\x0c' ||
  c = '\x1c' || c = '\x1d' || c = '\x1e' || c = '\x1f' || c = '\x85' || c = '\xa0' ||
  c = ' ' || c = ' ' || c = ' ' || c = ' ' || c = ' ' ||
  c = ' ' || c = ' ' || c = ' ' || c = ' ' || c = ' ' ||
  c = ' ' || c = ' ' || c = ' ' || c = ' ' || c = ' ' ||
  c = ' ' || c = '　'

/-- `_WHITESPACE_RE.sub(" ", ·)`: replace every maximal run of whitespace
characters by a single space.  The `inRun` flag records whether we are
inside a whitespace run whose replacement space was already emitted. -/
def collapseWsAux : Bool → List Char → List Char
  | _, [] => []
  | inRun, c :: rest =>
    if pySpace c then
      if inRun then collapseWsAux true rest
      else ' ' :: collapseWsAux true rest
    else c :: collapseWsAux false rest

def collapseWs (l : List Char) : List Char := collapseWsAux false l

def lstripWs (l : List Char) : List Char := l.dropWhile pySpace

def rstripWs (l : List Char) : List Char := (l.reverse.dropWhile pySpace).reverse

/-- Python `str.strip()`. -/
def stripWs (l : List Char) : List Char := rstripWs (lstripWs l)

/-- `engine._normalize_keyword`; `collapseWs (stripWs keyword)` is the Python
local variable `collapsed`, inlined. -/
def normalize_keyword (keyword : List Char) : List Char :=
  if collapseWs (stripWs keyword) = [] then []
  else if (collapseWs (stripWs keyword)).length < MIN_KEYWORD_LENGTH then []
  else if MAX_KEYWORD_LENGTH < (collapseWs (stripWs keyword)).length then
    rstripWs ((collapseWs (stripWs keyword)).take MAX_KEYWORD_LENGTH)
  else collapseWs (stripWs keyword)

example : normalize_keyword (['a']) = [] := by decide
example : normalize_keyword ([' ', 'a', 'b', ' ', ' ', 'c', '\t', ' ']) =
    (['a', 'b', ' ', 'c']) := by decide
example : normalize_keyword (List.replicate 79 'x' ++ [' ', ' ', 'y', 'z']) =
    List.replicate 79 'x' := by decide

/-! ## Shape invariants of normalized keywords -/

/-- The first character, when present, is not whitespace. -/
def NoHeadWs (l : List Char) : Prop := ∀ c ∈ l.head?, pySpace c = false

/-- The last character, when present, is not whitespace. -/
def NoLastWs (l : List Char) : Prop := ∀ c ∈ l.getLast?, pySpace c = false

/-- Two adjacent characters are never both whitespace. -/
def WsRel (a b : Char) : Prop := ¬(pySpace a = true ∧ pySpace b = true)

/-- All whitespace characters are plain spaces and no two are adjacent. -/
def SpacedApart (l : List Char) : Prop :=
  (∀ c ∈ l, pySpace c = true → c = ' ') ∧ l.Chain' WsRel

theorem collapseWsAux_space_true {d : Char} (hd : pySpace d = true) (rest : List Char) :
    collapseWsAux true (d :: rest) = collapseWsAux true rest := by
  show (if pySpace d = true then
      if true = true then collapseWsAux true rest else ' ' :: collapseWsAux true rest
    else d :: collapseWsAux false rest) = collapseWsAux true rest
  rw [if_pos hd, if_pos rfl]

theorem collapseWsAux_space_false {d : Char} (hd : pySpace d = true) (rest : List Char) :
    collapseWsAux false (d :: rest) = ' ' :: collapseWsAux true rest := by
  show (if pySpace d = true then
      if false = true then collapseWsAux true rest else ' ' :: collapseWsAux true rest
    else d :: collapseWsAux false rest) = ' ' :: collapseWsAux true rest
  rw [if_pos hd, if_neg (by simp)]

theorem collapseWsAux_nonspace {d : Char} (hd : pySpace d = false) (b : Bool)
    (rest : List Char) :
    collapseWsAux b (d :: rest) = d :: collapseWsAux false rest := by
  show (if pySpace d = true then
      if b = true then collapseWsAux true rest else ' ' :: collapseWsAux true rest
    else d :: collapseWsAux false rest) = d :: collapseWsAux false rest
  rw [if_neg (by simp [hd])]

theorem head?_dropWhile_ws (l : List Char) :
    ∀ c ∈ (l.dropWhile pySpace).head?, pySpace c = false := by
  intro c hc
  have h := List.head?_dropWhile_not pySpace l
  rw [Option.mem_def] at hc
  rw [hc] at h
  exact h

theorem mem_collapseWsAux (b : Bool) (l : List Char) :
    ∀ c ∈ collapseWsAux b l, c = ' ' ∨ (c ∈ l ∧ pySpace c = false) := by
  induction l generalizing b with
  | nil => intro c hc; simp [collapseWsAux] at hc
  | cons d rest ih =>
    intro c hc
    cases hd : pySpace d with
    | false =>
      rw [collapseWsAux_nonspace hd] at hc
      rcases List.mem_cons.mp hc with rfl | hc
      · exact Or.inr ⟨List.mem_cons_self _ _, hd⟩
      · rcases ih false c hc with h | ⟨h1, h2⟩
        · exact Or.inl h
        · exact Or.inr ⟨List.mem_cons_of_mem _ h1, h2⟩
    | true =>
      cases b with
      | true =>
        rw [collapseWsAux_space_true hd] at hc
        rcases ih true c hc with h | ⟨h1, h2⟩
        · exact Or.inl h
        · exact Or.inr ⟨List.mem_cons_of_mem _ h1, h2⟩
      | false =>
        rw [collapseWsAux_space_false hd] at hc
        rcases List.mem_cons.mp hc with rfl | hc
        · exact Or.inl rfl
        · rcases ih true c hc with h | ⟨h1, h2⟩
          · exact Or.inl h
          · exact Or.inr ⟨List.mem_cons_of_mem _ h1, h2⟩

theorem head?_collapseWsAux_true (l : List Char) :
    ∀ c ∈ (collapseWsAux true l).head?, pySpace c = false := by
  induction l with
  | nil => intro c hc; simp [collapseWsAux] at hc
  | cons d rest ih =>
    intro c hc
    cases hd : pySpace d with
    | true =>
      rw [collapseWsAux_space_true hd] at hc
      exact ih c hc
    | false =>
      rw [collapseWsAux_nonspace hd] at hc
      simp only [List.head?_cons, Option.mem_def, Option.some.injEq] at hc
      subst hc; exact hd

theorem chain'_collapseWsAux (b : Bool) (l : List Char) :
    (collapseWsAux b l).Chain' WsRel := by
  induction l generalizing b with
  | nil => simp [collapseWsAux]
  | cons d rest ih =>
    cases hd : pySpace d with
    | false =>
      rw [collapseWsAux_nonspace hd, List.chain'_cons']
      exact ⟨fun y _ => fun h => by rw [hd] at h; exact absurd h.1 (by simp), ih false⟩
    | true =>
      cases b with
      | true =>
        rw [collapseWsAux_space_true hd]
        exact ih true
      | false =>
        rw [collapseWsAux_space_false hd, List.chain'_cons']
        refine ⟨fun y hy => ?_, ih true⟩
        have hfy : pySpace y = false := head?_collapseWsAux_true rest y hy
        exact fun h => by rw [hfy] at h; exact absurd h.2 (by simp)

theorem collapseWsAux_eq_nil (b : Bool) (l : List Char) (h : collapseWsAux b l = []) :
    ∀ c ∈ l, pySpace c = true := by
  induction l generalizing b with
  | nil => simp
  | cons d rest ih =>
    intro c hc
    cases hd : pySpace d with
    | false => rw [collapseWsAux_nonspace hd] at h; exact absurd h (by simp)
    | true =>
      cases b with
      | false => rw [collapseWsAux_space_false hd] at h; exact absurd h (by simp)
      | true =>
        rw [collapseWsAux_space_true hd] at h
        rcases List.mem_cons.mp hc with rfl | hc'
        · exact hd
        · exact ih true h c hc'

theorem getLast?_cons_of_ne_nil {α : Type} (a : α) {l : List α} (h : l ≠ []) :
    (a :: l).getLast? = l.getLast? := by
  cases l with
  | nil => exact absurd rfl h
  | cons b m => exact List.getLast?_cons_cons

theorem noLastWs_collapseWsAux (b : Bool) (l : List Char) (h : NoLastWs l) :
    NoLastWs (collapseWsAux b l) := by
  induction l generalizing b with
  | nil => intro c hc; simp [collapseWsAux] at hc
  | cons d rest ih =>
    cases rest with
    | nil =>
      have hd : pySpace d = false := h d (by simp)
      intro c hc
      cases b <;> simp [collapseWsAux, hd] at hc <;> (subst hc; exact hd)
    | cons e rest' =>
      have hrest : NoLastWs (e :: rest') := by
        intro c hc; exact h c (by rwa [List.getLast?_cons_cons])
      have hneC : ∀ b' : Bool, collapseWsAux b' (e :: rest') ≠ [] := by
        intro b' hnil
        have hall := collapseWsAux_eq_nil b' (e :: rest') hnil
        obtain ⟨x, hx⟩ := Option.isSome_iff_exists.mp
          (by simp : (e :: rest').getLast?.isSome = true)
        have hxs : pySpace x = false := hrest x (by rw [Option.mem_def]; exact hx)
        have := hall x (List.mem_of_getLast?_eq_some hx)
        rw [hxs] at this
        exact absurd this (by simp)
      intro c hc
      cases hd : pySpace d with
      | false =>
        rw [collapseWsAux_nonspace hd,
          getLast?_cons_of_ne_nil _ (hneC false)] at hc
        exact ih false hrest c hc
      | true =>
        cases b with
        | true =>
          rw [collapseWsAux_space_true hd] at hc
          exact ih true hrest c hc
        | false =>
          rw [collapseWsAux_space_false hd,
            getLast?_cons_of_ne_nil _ (hneC true)] at hc
          exact ih true hrest c hc

theorem spacedApart_collapseWs (l : List Char) : SpacedApart (collapseWs l) := by
  constructor
  · intro c hc hs
    rcases mem_collapseWsAux false l c hc with h | ⟨_, h⟩
    · exact h
    · rw [h] at hs; exact absurd hs (by simp)
  · exact chain'_collapseWsAux false l

theorem noHeadWs_collapseWs {l : List Char} (h : NoHeadWs l) : NoHeadWs (collapseWs l) := by
  cases l with
  | nil => intro c hc; simp [collapseWs, collapseWsAux] at hc
  | cons d rest =>
    have hd : pySpace d = false := h d (by simp)
    intro c hc
    rw [collapseWs, collapseWsAux_nonspace hd] at hc
    simp only [List.head?_cons, Option.mem_def, Option.some.injEq] at hc
    subst hc; exact hd

theorem noHeadWs_lstripWs (l : List Char) : NoHeadWs (lstripWs l) :=
  head?_dropWhile_ws l

theorem noLastWs_rstripWs (l : List Char) : NoLastWs (rstripWs l) := by
  intro c hc
  rw [rstripWs] at hc
  rw [Option.mem_def, List.getLast?_reverse] at hc
  exact head?_dropWhile_ws l.reverse c hc

theorem getLast?_dropWhile_ws (l : List Char) :
    l.dropWhile pySpace = [] ∨ (l.dropWhile pySpace).getLast? = l.getLast? := by
  induction l with
  | nil => exact Or.inl rfl
  | cons d rest ih =>
    cases hd : pySpace d with
    | false => right; rw [List.dropWhile_cons, if_neg (by simp [hd])]
    | true =>
      rw [List.dropWhile_cons, if_pos (by simp [hd])]
      cases rest with
      | nil => exact Or.inl rfl
      | cons e rest' =>
        rcases ih with h | h
        · exact Or.inl h
        · right; rw [h, List.getLast?_cons_cons]

theorem noHeadWs_rstripWs {l : List Char} (h : NoHeadWs l) : NoHeadWs (rstripWs l) := by
  intro c hc
  rw [rstripWs, Option.mem_def, List.head?_reverse] at hc
  rcases getLast?_dropWhile_ws l.reverse with he | heq
  · rw [he] at hc; simp at hc
  · rw [heq, List.getLast?_reverse] at hc
    exact h c hc

theorem chain'_wsRel_reverse {l : List Char} (h : l.Chain' WsRel) :
    l.reverse.Chain' WsRel := by
  rw [List.chain'_reverse]
  exact h.imp (fun a b hab => fun hp => hab ⟨hp.2, hp.1⟩)

theorem chain'_wsRel_dropWhile {p : Char → Bool} {l : List Char} (h : l.Chain' WsRel) :
    (l.dropWhile p).Chain' WsRel :=
  h.suffix (List.dropWhile_suffix p)

theorem spacedApart_rstripWs {l : List Char} (h : SpacedApart l) :
    SpacedApart (rstripWs l) := by
  obtain ⟨h1, h2⟩ := h
  constructor
  · intro c hc hs
    apply h1 c _ hs
    rw [rstripWs, List.mem_reverse] at hc
    have hmem := (List.dropWhile_sublist (l := l.reverse) pySpace).mem hc
    rwa [List.mem_reverse] at hmem
  · rw [rstripWs]
    exact chain'_wsRel_reverse (chain'_wsRel_dropWhile (chain'_wsRel_reverse h2))

theorem noHeadWs_take {l : List Char} (n : Nat) (h : NoHeadWs l) : NoHeadWs (l.take n) := by
  cases l with
  | nil => intro c hc; simp at hc
  | cons d rest =>
    cases n with
    | zero => intro c hc; simp at hc
    | succ m =>
      intro c hc
      simp only [List.take_succ_cons, List.head?_cons, Option.mem_def,
        Option.some.injEq] at hc
      subst hc; exact h d (by simp)

theorem spacedApart_take {l : List Char} (n : Nat) (h : SpacedApart l) :
    SpacedApart (l.take n) :=
  ⟨fun c hc hs => h.1 c (List.mem_of_mem_take hc) hs, h.2.take n⟩

theorem dropWhile_eq_self_of_noHead {p : Char → Bool} {l : List Char}
    (h : ∀ c ∈ l.head?, p c = false) : l.dropWhile p = l := by
  cases l with
  | nil => rfl
  | cons d rest =>
    have hd := h d (by simp)
    rw [List.dropWhile_cons, if_neg (by simp [hd])]

theorem stripWs_eq_self {l : List Char} (h1 : NoHeadWs l) (h2 : NoLastWs l) :
    stripWs l = l := by
  rw [stripWs, lstripWs, rstripWs, dropWhile_eq_self_of_noHead h1]
  have h2' : ∀ c ∈ l.reverse.head?, pySpace c = false := by
    intro c hc
    rw [Option.mem_def, List.head?_reverse] at hc
    exact h2 c hc
  rw [dropWhile_eq_self_of_noHead h2', List.reverse_reverse]

theorem collapseWsAux_true_eq_false {l : List Char} (h : NoHeadWs l) :
    collapseWsAux true l = collapseWsAux false l := by
  cases l with
  | nil => rfl
  | cons d rest =>
    have hd : pySpace d = false := h d (by simp)
    rw [collapseWsAux_nonspace hd, collapseWsAux_nonspace hd]

theorem collapseWs_eq_self : ∀ {l : List Char}, SpacedApart l → collapseWs l = l := by
  intro l
  induction l with
  | nil => intro _; rfl
  | cons d rest ih =>
    intro hsp
    obtain ⟨h1, h2⟩ := hsp
    rw [List.chain'_cons'] at h2
    obtain ⟨hhd, htl⟩ := h2
    have ihr : collapseWs rest = rest :=
      ih ⟨fun c hc hs => h1 c (List.mem_cons_of_mem _ hc) hs, htl⟩
    cases hd : pySpace d with
    | false => rw [collapseWs, collapseWsAux_nonspace hd]; exact congrArg _ ihr
    | true =>
      have hd' : d = ' ' := h1 d (List.mem_cons_self _ _) hd
      have hrest : NoHeadWs rest := by
        intro y hy
        have hw := hhd y hy
        rw [WsRel, hd] at hw
        by_contra hcon
        exact hw ⟨rfl, by revert hcon; cases pySpace y <;> simp⟩
      rw [collapseWs, collapseWsAux_space_false hd,
        collapseWsAux_true_eq_false hrest]
      rw [collapseWs] at ihr
      rw [ihr, hd']

theorem length_rstripWs_ge {l : List Char} (h : l.Chain' WsRel) :
    l.length - 1 ≤ (rstripWs l).length := by
  rw [rstripWs, List.length_reverse]
  have h' : l.reverse.Chain' WsRel := chain'_wsRel_reverse h
  have hlen : l.reverse.length = l.length := List.length_reverse l
  cases hr : l.reverse with
  | nil =>
    rw [hr] at hlen
    simp at hlen
    simp only [List.dropWhile_nil, List.length_nil]
    omega
  | cons d m =>
    rw [hr] at h' hlen
    simp only [List.length_cons] at hlen
    cases hd : pySpace d with
    | false =>
      rw [List.dropWhile_cons, if_neg (by simp [hd])]
      simp at hlen ⊢
      omega
    | true =>
      rw [List.dropWhile_cons, if_pos (by simp [hd])]
      rw [List.chain'_cons'] at h'
      have hm : ∀ c ∈ m.head?, pySpace c = false := by
        intro c hc
        have hw := h'.1 c hc
        rw [WsRel, hd] at hw
        by_contra hcon
        exact hw ⟨rfl, by revert hcon; cases pySpace c <;> simp⟩
      rw [dropWhile_eq_self_of_noHead hm]
      omega

theorem length_rstripWs_le (l : List Char) : (rstripWs l).length ≤ l.length := by
  rw [rstripWs, List.length_reverse]
  have h1 := (List.dropWhile_sublist (l := l.reverse) pySpace).length_le
  rwa [List.length_reverse] at h1

theorem normalize_keyword_fix {l : List Char} (hsp : SpacedApart l) (hh : NoHeadWs l)
    (hl : NoLastWs l) (h2 : 2 ≤ l.length) (h80 : l.length ≤ 80) :
    normalize_keyword l = l := by
  rw [normalize_keyword, stripWs_eq_self hh hl, collapseWs_eq_self hsp]
  rw [if_neg (by intro hnil; rw [hnil] at h2; simp at h2)]
  rw [if_neg (by rw [MIN_KEYWORD_LENGTH]; omega)]
  rw [if_neg (by rw [MAX_KEYWORD_LENGTH]; omega)]

theorem normalize_keyword_canon (s : List Char) :
    normalize_keyword s = [] ∨
      (SpacedApart (normalize_keyword s) ∧ NoHeadWs (normalize_keyword s) ∧
        NoLastWs (normalize_keyword s) ∧ 2 ≤ (normalize_keyword s).length ∧
        (normalize_keyword s).length ≤ 80) := by
  have hh0 : NoHeadWs (stripWs s) := noHeadWs_rstripWs (noHeadWs_lstripWs s)
  have hl0 : NoLastWs (stripWs s) := noLastWs_rstripWs _
  have hsp : SpacedApart (collapseWs (stripWs s)) := spacedApart_collapseWs _
  have hh : NoHeadWs (collapseWs (stripWs s)) := noHeadWs_collapseWs hh0
  have hl : NoLastWs (collapseWs (stripWs s)) := noLastWs_collapseWsAux false _ hl0
  rw [normalize_keyword, MIN_KEYWORD_LENGTH, MAX_KEYWORD_LENGTH]
  split_ifs with he hlen hbig
  · exact Or.inl rfl
  · exact Or.inl rfl
  · right
    have hsp80 : SpacedApart ((collapseWs (stripWs s)).take 80) :=
      spacedApart_take _ hsp
    have hlen80 : ((collapseWs (stripWs s)).take 80).length = 80 := by
      rw [List.length_take]; omega
    have hge := length_rstripWs_ge hsp80.2
    have hle := length_rstripWs_le ((collapseWs (stripWs s)).take 80)
    exact ⟨spacedApart_rstripWs hsp80,
      noHeadWs_rstripWs (noHeadWs_take _ hh),
      noLastWs_rstripWs _, by omega, by omega⟩
  · exact Or.inr ⟨hsp, hh, hl, by omega, by omega⟩

/-- C6: keyword normalization is idempotent — applying `_normalize_keyword`
twice yields the same result as applying it once, for every input string. -/
theorem normalize_keyword_idempotent (s : List Char) :
    normalize_keyword (normalize_keyword s) = normalize_keyword s := by
  rcases normalize_keyword_canon s with h | ⟨hsp, hh, hl, h2, h80⟩
  · rw [h]; decide
  · exact normalize_keyword_fix hsp hh hl h2 h80

/-- C9: for every input, `_normalize_keyword` returns either the empty string
or a string of length between 2 and 80 with no leading or trailing whitespace
and no two adjacent whitespace characters; in particular the
truncate-then-rstrip path never yields a non-empty result shorter than 2. -/
theorem normalize_keyword_shape (s : List Char) :
    normalize_keyword s = [] ∨
      (2 ≤ (normalize_keyword s).length ∧ (normalize_keyword s).length ≤ 80 ∧
        NoHeadWs (normalize_keyword s) ∧ NoLastWs (normalize_keyword s) ∧
        (normalize_keyword s).Chain' WsRel) := by
  rcases normalize_keyword_canon s with h | ⟨hsp, hh, hl, h2, h80⟩
  · exact Or.inl h
  · exact Or.inr ⟨h2, h80, hh, hl, hsp.2⟩

/-! ## Sustained-trend direction classification (`sustained.py`) -/

structure SustainedDirectionThresholds where
  accelerating_growth_min : ℚ
  accelerating_slope_min : ℚ
  accelerating_consistency_min : ℚ
  steady_growth_min : ℚ
  steady_slope_min : ℚ
  declining_growth_max : ℚ
  declining_slope_max : ℚ

def SUSTAINED_DIRECTION_THRESHOLDS : SustainedDirectionThresholds :=
  { accelerating_growth_min := 20 / 100
    accelerating_slope_min := 10 / 100
    accelerating_consistency_min := 60 / 100
    steady_growth_min := 5 / 100
    steady_slope_min := 3 / 100
    declining_growth_max := -10 / 100
    declining_slope_max := -5 / 100 }

/-- `sustained._classify_direction`. -/
def classify_direction (growth_rate slope_per_point consistency_ratio : ℚ) : String :=
  if SUSTAINED_DIRECTION_THRESHOLDS.accelerating_growth_min ≤ growth_rate ∧
      SUSTAINED_DIRECTION_THRESHOLDS.accelerating_slope_min ≤ slope_per_point ∧
      SUSTAINED_DIRECTION_THRESHOLDS.accelerating_consistency_min ≤ consistency_ratio then
    "accelerating"
  else if SUSTAINED_DIRECTION_THRESHOLDS.steady_growth_min ≤ growth_rate ∧
      SUSTAINED_DIRECTION_THRESHOLDS.steady_slope_min ≤ slope_per_point then
    "steady_up"
  else if growth_rate ≤ SUSTAINED_DIRECTION_THRESHOLDS.declining_growth_max ∨
      slope_per_point ≤ SUSTAINED_DIRECTION_THRESHOLDS.declining_slope_max then
    "declining"
  else "flat"

/-- The guard of the `accelerating` branch. -/
def AccelCond (g s c : ℚ) : Prop :=
  20 / 100 ≤ g ∧ 10 / 100 ≤ s ∧ 60 / 100 ≤ c

/-- The guard of the `steady_up` branch. -/
def SteadyCond (g s : ℚ) : Prop := 5 / 100 ≤ g ∧ 3 / 100 ≤ s

/-- The guard of the `declining` branch. -/
def DeclineCond (g s : ℚ) : Prop := g ≤ -10 / 100 ∨ s ≤ -5 / 100

/-- C5: direction classification is total — it always produces exactly one of
the four labels — and follows the spec's first-match priority order:
`accelerating` when growth ≥ 0.20, slope ≥ 0.10 and consistency ≥ 0.60;
otherwise `steady_up` when growth ≥ 0.05 and slope ≥ 0.03; otherwise
`declining` when growth ≤ −0.10 or slope ≤ −0.05; otherwise `flat`. -/
theorem classify_direction_total_priority (g s c : ℚ) :
    (classify_direction g s c = ("accelerating") ∨
      classify_direction g s c = ("steady_up") ∨
      classify_direction g s c = ("declining") ∨
      classify_direction g s c = ("flat")) ∧
    (classify_direction g s c = ("accelerating") ↔ AccelCond g s c) ∧
    (classify_direction g s c = ("steady_up") ↔
      ¬AccelCond g s c ∧ SteadyCond g s) ∧
    (classify_direction g s c = ("declining") ↔
      ¬AccelCond g s c ∧ ¬SteadyCond g s ∧ DeclineCond g s) ∧
    (classify_direction g s c = ("flat") ↔
      ¬AccelCond g s c ∧ ¬SteadyCond g s ∧ ¬DeclineCond g s) := by
  rw [classify_direction]
  show _ ∧ (_ ↔ AccelCond g s c) ∧ _ ∧ _ ∧ _
  rw [AccelCond, SteadyCond, DeclineCond]
  split_ifs with h1 h2 h3 <;>
    refine ⟨by simp, ?_, ?_, ?_, ?_⟩ <;>
    simp_all [SUSTAINED_DIRECTION_THRESHOLDS]

/-! ## Inventory recommendation (`engine._inventory_recommendation`) -/

structure InventoryRecommendationThresholds where
  add_now_total_min : ℚ
  add_now_sustained_min : ℚ
  add_now_marketplace_min : ℚ
  add_now_quality_min : ℚ
  test_batch_total_min : ℚ
  test_batch_sustained_min : ℚ
  test_batch_quality_min : ℚ
  watchlist_total_min : ℚ

def INVENTORY_RECOMMENDATION_THRESHOLDS : InventoryRecommendationThresholds :=
  { add_now_total_min := 70
    add_now_sustained_min := 60
    add_now_marketplace_min := 45
    add_now_quality_min := 55
    test_batch_total_min := 55
    test_batch_sustained_min := 45
    test_batch_quality_min := 45
    watchlist_total_min := 40 }

/-- `engine._inventory_recommendation`.  The Python conditional expression
`(quality_fit_score >= thr) if quality_required else True` is modelled as the
logically identical implication `positioning_mode = "quality" → thr ≤ quality_fit_score`. -/
def inventory_recommendation (total_score sustained_score marketplace_score
    quality_fit_score : ℚ) (positioning_mode : String) : String :=
  if (INVENTORY_RECOMMENDATION_THRESHOLDS.add_now_total_min ≤ total_score ∧
      INVENTORY_RECOMMENDATION_THRESHOLDS.add_now_sustained_min ≤ sustained_score ∧
      INVENTORY_RECOMMENDATION_THRESHOLDS.add_now_marketplace_min ≤ marketplace_score ∧
      (positioning_mode = ("quality") →
        INVENTORY_RECOMMENDATION_THRESHOLDS.add_now_quality_min ≤ quality_fit_score)) then
    "add_now"
  else if (INVENTORY_RECOMMENDATION_THRESHOLDS.test_batch_total_min ≤ total_score ∧
      INVENTORY_RECOMMENDATION_THRESHOLDS.test_batch_sustained_min ≤ sustained_score ∧
      (positioning_mode = ("quality") →
        INVENTORY_RECOMMENDATION_THRESHOLDS.test_batch_quality_min ≤ quality_fit_score)) then
    "test_small_batch"
  else if INVENTORY_RECOMMENDATION_THRESHOLDS.watchlist_total_min ≤ total_score then
    "watchlist"
  else "reject"

/-- The tier order of the claim: `add_now > test_small_batch > watchlist > reject`. -/
def tierRank : String → Nat
  | "add_now" => 3
  | "test_small_batch" => 2
  | "watchlist" => 1
  | _ => 0

/-- C4: for fixed sustained, marketplace and quality-fit scores and a fixed
positioning mode, the recommendation tier is monotone in `total_score`:
increasing the total score never demotes the tier in the order
`add_now > test_small_batch > watchlist > reject`. -/
theorem inventory_recommendation_monotone (s m q : ℚ) (mode : String)
    (t1 t2 : ℚ) (h : t1 ≤ t2) :
    tierRank (inventory_recommendation t1 s m q mode) ≤
      tierRank (inventory_recommendation t2 s m q mode) := by
  rw [inventory_recommendation, inventory_recommendation]
  simp only [INVENTORY_RECOMMENDATION_THRESHOLDS]
  split_ifs with a1 a2 a3 b1 b2 b3 <;>
    simp_all [tierRank] <;>
    linarith

theorem inventory_recommendation_monotone_witness :
    (50 : ℚ) ≤ 72 ∧
      tierRank (inventory_recommendation 50 65 50 60 ("balanced")) ≤
        tierRank (inventory_recommendation 72 65 50 60 ("balanced")) :=
  ⟨by norm_num, inventory_recommendation_monotone 65 50 60 ("balanced") 50 72 (by norm_num)⟩

/-! ## Quality-fit scoring (`engine._score_quality_fit`) -/

/-- Python substring containment `needle in haystack`. -/
def isSubstring (needle haystack : List Char) : Bool :=
  haystack.tails.any (fun t => needle.isPrefixOf t)

/-- `constants.QUALITY_POSITIVE_TOKENS` (a frozenset, modelled as a
duplicate-free list; only membership is used). -/
def QUALITY_POSITIVE_TOKENS : List (List Char) :=
  [['p','r','e','m','i','u','m'], ['o','r','g','a','n','i','c'],
   ['a','u','t','h','e','n','t','i','c'], ['o','f','f','i','c','i','a','l'],
   ['l','u','x','u','r','y'], ['d','e','s','i','g','n','e','r'],
   ['a','r','t','i','s','a','n'],
   ['h','i','g','h',' ','q','u','a','l','i','t','y']]

/-- `constants.QUALITY_NEGATIVE_TOKENS`. -/
def QUALITY_NEGATIVE_TOKENS : List (List Char) :=
  [['c','h','e','a','p'], ['c','l','e','a','r','a','n','c','e'],
   ['b','u','l','k'], ['w','h','o','l','e','s','a','l','e'],
   ['d','u','p','e'], ['r','e','p','l','i','c','a'],
   ['k','n','o','c','k','o','f','f'], ['l','o','w',' ','c','o','s','t']]

/-- `engine._clamp`. -/
def clamp (value lower upper : ℚ) : ℚ :=
  if value < lower then lower
  else if upper < value then upper
  else value

/-- The value of the Python local `score` in `_score_quality_fit` after the
first two token loops (positive boosts, then negative penalties); the loops
over the token frozensets are folds — set-iteration order is irrelevant to
the summed result. -/
def qualityScoreAfterBaseLoops (keyword : List Char) : ℚ :=
  QUALITY_NEGATIVE_TOKENS.foldl
    (fun acc t => if isSubstring t (keyword.map Char.toLower) then
      acc - QUALITY_NEGATIVE_TOKEN_PENALTY else acc)
    (QUALITY_POSITIVE_TOKENS.foldl
      (fun acc t => if isSubstring t (keyword.map Char.toLower) then
        acc + QUALITY_POSITIVE_TOKEN_BOOST else acc)
      QUALITY_SCORE_BASELINE)

/-- `engine._score_quality_fit`. -/
def score_quality_fit (keyword : List Char) (positioning_mode : String) : ℚ :=
  clamp
    (if positioning_mode = ("quality") then
      QUALITY_NEGATIVE_TOKENS.foldl
        (fun acc t => if isSubstring t (keyword.map Char.toLower) then
          acc - QUALITY_NEGATIVE_TOKEN_PENALTY else acc)
        (qualityScoreAfterBaseLoops keyword)
    else qualityScoreAfterBaseLoops keyword)
    QUALITY_SCORE_MIN QUALITY_SCORE_MAX

theorem foldl_add_if_count (w : ℚ) (p : List Char → Bool) :
    ∀ (l : List (List Char)) (init : ℚ),
      l.foldl (fun acc t => if p t then acc + w else acc) init =
        init + w * (l.countP p : ℚ) := by
  intro l
  induction l with
  | nil => intro init; simp
  | cons t rest ih =>
    intro init
    rw [List.foldl_cons, List.countP_cons, ih]
    cases hp : p t with
    | false => simp [hp]
    | true =>
      simp [hp]
      ring

theorem foldl_sub_if_count (w : ℚ) (p : List Char → Bool) (l : List (List Char))
    (init : ℚ) :
    l.foldl (fun acc t => if p t then acc - w else acc) init =
      init - w * (l.countP p : ℚ) := by
  have h := foldl_add_if_count (-w) p l init
  simp only [← sub_eq_add_neg] at h
  rw [h]
  ring

/-- C7: the quality-fit score equals the clamp to [0, 100] of: baseline 50,
plus 8 for each positive token occurring in the lowercased keyword, minus 14
for each occurring negative token, with each occurring negative token
penalized a second time (28 total) in `quality` positioning mode. -/
theorem score_quality_fit_closed_form (keyword : List Char)
    (positioning_mode : String) :
    score_quality_fit keyword positioning_mode =
      clamp
        (50 + 8 * (QUALITY_POSITIVE_TOKENS.countP
            (fun t => isSubstring t (keyword.map Char.toLower)) : ℚ)
          - 14 * (QUALITY_NEGATIVE_TOKENS.countP
            (fun t => isSubstring t (keyword.map Char.toLower)) : ℚ)
          - (if positioning_mode = ("quality") then
              14 * (QUALITY_NEGATIVE_TOKENS.countP
                (fun t => isSubstring t (keyword.map Char.toLower)) : ℚ)
            else 0))
        0 100 := by
  have hbase : qualityScoreAfterBaseLoops keyword =
      50 + 8 * (QUALITY_POSITIVE_TOKENS.countP
          (fun t => isSubstring t (keyword.map Char.toLower)) : ℚ)
        - 14 * (QUALITY_NEGATIVE_TOKENS.countP
          (fun t => isSubstring t (keyword.map Char.toLower)) : ℚ) := by
    rw [qualityScoreAfterBaseLoops, foldl_add_if_count, foldl_sub_if_count]
    norm_num [QUALITY_SCORE_BASELINE, QUALITY_POSITIVE_TOKEN_BOOST,
      QUALITY_NEGATIVE_TOKEN_PENALTY]
  rw [score_quality_fit, QUALITY_SCORE_MIN, QUALITY_SCORE_MAX]
  by_cases hq : positioning_mode = ("quality")
  · rw [if_pos hq, if_pos hq, foldl_sub_if_count, hbase,
      QUALITY_NEGATIVE_TOKEN_PENALTY]
  · rw [if_neg hq, if_neg hq, hbase]
    congr 1
    all_goals ring

/-! ## Logarithmic scaling (`engine._log_scaled`) -/

/-- `engine._log_scaled`; `math.log10` is modelled as `Real.logb 10`. -/
noncomputable def log_scaled (value : ℤ) : ℝ :=
  if value ≤ 0 then 0
  else min 1 (Real.logb 10 ((value : ℝ) + 1) / 6)

/-- C10: `_log_scaled` is total and bounded — its value always lies in
[0, 1]; it returns exactly 0 for every non-positive argument, and on positive
arguments the logarithm is only ever applied to the argument `value + 1`,
which is strictly positive. -/
theorem log_scaled_bounds (value : ℤ) :
    (0 ≤ log_scaled value ∧ log_scaled value ≤ 1) ∧
      (value ≤ 0 → log_scaled value = 0) ∧
      (0 < value →
        log_scaled value = min 1 (Real.logb 10 ((value : ℝ) + 1) / 6) ∧
          (0 : ℝ) < (value : ℝ) + 1) := by
  by_cases h : value ≤ 0
  · rw [log_scaled, if_pos h]
    exact ⟨⟨le_refl 0, by norm_num⟩, fun _ => rfl, fun hc => absurd h (by omega)⟩
  · rw [log_scaled, if_neg h]
    have h1 : (1 : ℤ) ≤ value := by omega
    have h1r : (1 : ℝ) ≤ (value : ℝ) := by exact_mod_cast h1
    have hlog : 0 ≤ Real.logb 10 ((value : ℝ) + 1) :=
      Real.logb_nonneg (by norm_num) (by linarith)
    refine ⟨⟨le_min (by norm_num) (by linarith), min_le_left _ _⟩,
      fun hc => absurd hc h, fun _ => ⟨rfl, by linarith⟩⟩

theorem log_scaled_bounds_witness :
    ((-7 : ℤ) ≤ 0 ∧ log_scaled (-7) = 0) ∧ ((0 : ℤ) < 3 ∧ (0 : ℝ) < (3 : ℤ) + 1) :=
  ⟨⟨by norm_num, (log_scaled_bounds (-7)).2.1 (by norm_num)⟩,
    ⟨by norm_num, by
      have h := ((log_scaled_bounds 3).2.2 (by norm_num)).2
      exact_mod_cast h⟩⟩

/-! ## Candidate ledger (`engine._add_candidate`) -/

/-- `engine._CandidateAccumulator`; point fields are ℚ, `sources` is a
`Finset` (Python `set`). -/
structure CandidateAccumulator where
  keyword : List Char
  search_points : ℚ
  trend_points : ℚ
  sustained_points : ℚ
  sources : Finset String
  trend_hits : Nat
  max_trend_traffic_estimate : ℤ
  sustained_direction : Option String
deriving DecidableEq

/-- The `_CandidateAccumulator(keyword=normalized)` constructor call with all
other fields defaulted. -/
def freshAccumulator (normalized : List Char) : CandidateAccumulator :=
  { keyword := normalized
    search_points := 0
    trend_points := 0
    sustained_points := 0
    sources := ∅
    trend_hits := 0
    max_trend_traffic_estimate := 0
    sustained_direction := none }

/-- One observation fed to `_add_candidate`. -/
structure Observation where
  keyword : List Char
  search_points : ℚ
  trend_points : ℚ
  source : String
  trend_traffic_estimate : ℤ
deriving DecidableEq

/-- The candidate map `dict[str, _CandidateAccumulator]`, as a partial map
keyed by the lowercased normalized keyword. -/
def CandidateMap : Type := List Char → Option CandidateAccumulator

def emptyCandidateMap : CandidateMap := fun _ => none

/-- The lowercased map key of an observation. -/
def obsKey (o : Observation) : List Char :=
  (normalize_keyword o.keyword).map Char.toLower

/-- The field updates `_add_candidate` performs on the (fresh or looked-up)
accumulator `candidate`. -/
def applyObservation (o : Observation) (candidate : CandidateAccumulator) :
    CandidateAccumulator :=
  { candidate with
    search_points := candidate.search_points + o.search_points
    trend_points := candidate.trend_points + o.trend_points
    sources := insert o.source candidate.sources
    trend_hits :=
      if 0 < o.trend_points then candidate.trend_hits + 1
      else candidate.trend_hits
    max_trend_traffic_estimate :=
      if 0 < o.trend_points then
        max candidate.max_trend_traffic_estimate o.trend_traffic_estimate
      else candidate.max_trend_traffic_estimate }

/-- `engine._add_candidate` (the early return on an empty normalized keyword
is folded into the pointwise definition of the resulting map). -/
def add_candidate (m : CandidateMap) (o : Observation) : CandidateMap :=
  fun k =>
    if normalize_keyword o.keyword = [] then m k
    else if k = obsKey o then
      some (applyObservation o
        ((m (obsKey o)).getD (freshAccumulator (normalize_keyword o.keyword))))
    else m k

theorem add_candidate_apply (m : CandidateMap) (o : Observation) (k : List Char) :
    add_candidate m o k =
      if normalize_keyword o.keyword = [] then m k
      else if k = obsKey o then
        some (applyObservation o
          ((m (obsKey o)).getD (freshAccumulator (normalize_keyword o.keyword))))
      else m k := rfl

theorem add_candidate_nil {o : Observation} (h : normalize_keyword o.keyword = [])
    (m : CandidateMap) : add_candidate m o = m := by
  funext k
  rw [add_candidate_apply, if_pos h]

/-- Folding a whole collection of observations into the ledger. -/
def add_candidates (l : List Observation) (m : CandidateMap) : CandidateMap :=
  l.foldl add_candidate m

/-- Projection of an accumulator onto every field except the `keyword`
display form. -/
def accumData (a : CandidateAccumulator) :
    ℚ × ℚ × ℚ × Finset String × Nat × ℤ × Option String :=
  (a.search_points, a.trend_points, a.sustained_points, a.sources,
    a.trend_hits, a.max_trend_traffic_estimate, a.sustained_direction)

/-- Equality of candidate maps up to the keyword display form: the same keys
are present and every field except `keyword` agrees. -/
def MapEquiv (m1 m2 : CandidateMap) : Prop :=
  ∀ k, Option.map accumData (m1 k) = Option.map accumData (m2 k)

theorem mapEquiv_refl (m : CandidateMap) : MapEquiv m m := fun _ => rfl

theorem mapEquiv_trans {m1 m2 m3 : CandidateMap} (h1 : MapEquiv m1 m2)
    (h2 : MapEquiv m2 m3) : MapEquiv m1 m3 :=
  fun k => (h1 k).trans (h2 k)

theorem accumData_fresh (n1 n2 : List Char) :
    accumData (freshAccumulator n1) = accumData (freshAccumulator n2) := rfl

theorem accumData_applyObservation {c1 c2 : CandidateAccumulator} (o : Observation)
    (h : accumData c1 = accumData c2) :
    accumData (applyObservation o c1) = accumData (applyObservation o c2) := by
  simp only [accumData, Prod.mk.injEq] at h
  obtain ⟨e1, e2, e3, e4, e5, e6, e7⟩ := h
  simp only [accumData, applyObservation, Prod.mk.injEq]
  rw [e1, e2, e3, e4, e5, e6, e7]
  simp

theorem accumData_applyObservation_swap (o1 o2 : Observation)
    (c : CandidateAccumulator) :
    accumData (applyObservation o2 (applyObservation o1 c)) =
      accumData (applyObservation o1 (applyObservation o2 c)) := by
  simp only [accumData, applyObservation, Prod.mk.injEq]
  refine ⟨by ring, by ring, trivial, Finset.Insert.comm _ _ _, ?_, ?_, trivial⟩
  · split_ifs <;> omega
  · split_ifs <;> simp [max_comm, max_assoc, max_left_comm]

theorem add_candidate_congr {m1 m2 : CandidateMap} (o : Observation)
    (h : MapEquiv m1 m2) : MapEquiv (add_candidate m1 o) (add_candidate m2 o) := by
  intro k
  rw [add_candidate_apply, add_candidate_apply]
  split_ifs with hn hk
  · exact h k
  · have hkey := h (obsKey o)
    cases hm1 : m1 (obsKey o) with
    | none =>
      rw [hm1] at hkey
      cases hm2 : m2 (obsKey o) with
      | none => rfl
      | some b => rw [hm2] at hkey; simp at hkey
    | some a =>
      rw [hm1] at hkey
      cases hm2 : m2 (obsKey o) with
      | none => rw [hm2] at hkey; simp at hkey
      | some b =>
        rw [hm2] at hkey
        simp only [Option.map_some', Option.some.injEq] at hkey
        simp only [Option.getD_some, Option.map_some', Option.some.injEq]
        exact accumData_applyObservation o hkey
  · exact h k

theorem add_candidate_swap (m : CandidateMap) (o1 o2 : Observation) :
    MapEquiv (add_candidate (add_candidate m o1) o2)
      (add_candidate (add_candidate m o2) o1) := by
  by_cases h1 : normalize_keyword o1.keyword = []
  · rw [add_candidate_nil h1, add_candidate_nil h1]
    exact mapEquiv_refl _
  · by_cases h2 : normalize_keyword o2.keyword = []
    · rw [add_candidate_nil h2, add_candidate_nil h2]
      exact mapEquiv_refl _
    · intro k
      rw [add_candidate_apply (add_candidate m o1) o2 k,
        add_candidate_apply (add_candidate m o2) o1 k, if_neg h2, if_neg h1]
      by_cases hk2 : k = obsKey o2
      · by_cases hk1 : k = obsKey o1
        · -- shared key: both orders apply both observations to the same entry
          have hkk : obsKey o1 = obsKey o2 := hk1.symm.trans hk2
          rw [if_pos hk2, if_pos hk1]
          rw [add_candidate_apply m o1 (obsKey o2),
            add_candidate_apply m o2 (obsKey o1), if_neg h1, if_neg h2,
            if_pos hkk.symm, if_pos hkk, hkk]
          simp only [Option.getD_some, Option.map_some', Option.some.injEq]
          cases hm : m (obsKey o2) with
          | none =>
            simp only [Option.getD_none, Option.map_some', Option.some.injEq]
            exact (accumData_applyObservation o2
                (accumData_applyObservation o1 (accumData_fresh _ _))).trans
              (accumData_applyObservation_swap o1 o2 _)
          | some a =>
            simp only [Option.getD_some, Option.map_some', Option.some.injEq]
            exact accumData_applyObservation_swap o1 o2 a
        · -- k = key2 only
          have hne : ¬ obsKey o2 = obsKey o1 := fun hc => hk1 (hk2.trans hc)
          rw [if_pos hk2, if_neg hk1]
          rw [add_candidate_apply m o1 (obsKey o2), if_neg h1, if_neg hne]
          rw [add_candidate_apply m o2 k, if_neg h2, if_pos hk2]
      · by_cases hk1 : k = obsKey o1
        · -- k = key1 only
          have hne : ¬ obsKey o1 = obsKey o2 := fun hc => hk2 (hk1.trans hc)
          rw [if_neg hk2, if_pos hk1]
          rw [add_candidate_apply m o2 (obsKey o1), if_neg h2, if_neg hne]
          rw [add_candidate_apply m o1 k, if_neg h1, if_pos hk1]
        · -- neither key: both sides are m k
          rw [if_neg hk2, if_neg hk1]
          rw [add_candidate_apply m o1 k, if_neg h1, if_neg hk1]
          rw [add_candidate_apply m o2 k, if_neg h2, if_neg hk2]

theorem add_candidates_congr (l : List Observation) :
    ∀ {m1 m2 : CandidateMap}, MapEquiv m1 m2 →
      MapEquiv (add_candidates l m1) (add_candidates l m2) := by
  induction l with
  | nil => intro m1 m2 h; exact h
  | cons o rest ih => intro m1 m2 h; exact ih (add_candidate_congr o h)

theorem add_candidates_perm_equiv {l1 l2 : List Observation} (hp : l1.Perm l2) :
    ∀ {m1 m2 : CandidateMap}, MapEquiv m1 m2 →
      MapEquiv (add_candidates l1 m1) (add_candidates l2 m2) := by
  induction hp with
  | nil => intro m1 m2 h; exact h
  | cons x _ ih =>
    intro m1 m2 h
    exact ih (add_candidate_congr x h)
  | swap x y l =>
    intro m1 m2 h
    show MapEquiv (add_candidates l (add_candidate (add_candidate m1 y) x))
      (add_candidates l (add_candidate (add_candidate m2 x) y))
    exact add_candidates_congr l
      (mapEquiv_trans (add_candidate_swap m1 y x)
        (add_candidate_congr y (add_candidate_congr x h)))
  | trans _ _ ih1 ih2 =>
    intro m1 m2 h
    exact mapEquiv_trans (ih1 (mapEquiv_refl _)) (ih2 h)

/-- C1 (amended): ledger accumulation is commutative up to the keyword
display form — for any two permutations of the same observations, starting
from the empty map, the resulting maps have the same key set and agree on
search_points, trend_points, sustained_points, sources, trend_hits,
max_trend_traffic_estimate and sustained_direction at every key.  (The
keyword display form itself is excluded: it is taken from whichever
observation of a key arrives first, so it can differ across orders.) -/
theorem add_candidates_comm {l1 l2 : List Observation} (hp : l1.Perm l2) :
    MapEquiv (add_candidates l1 emptyCandidateMap)
      (add_candidates l2 emptyCandidateMap) :=
  add_candidates_perm_equiv hp (mapEquiv_refl _)

/-- An observation whose keyword is the upper-case display form `"AB"`. -/
def obsUpperAB : Observation :=
  { keyword := ['A', 'B']
    search_points := 1
    trend_points := 0
    source := "seed_keyword"
    trend_traffic_estimate := 0 }

/-- An observation whose keyword is the lower-case display form `"ab"` —
same ledger key as `obsUpperAB`. -/
def obsLowerAB : Observation :=
  { keyword := ['a', 'b']
    search_points := 1
    trend_points := 0
    source := "seed_keyword"
    trend_traffic_estimate := 0 }

/-- C1 counterexample: the claim as stated is false — the keyword display
form stored for a key is the one of the first observation seen, so two
permutations of the same observations can produce maps whose entry at key
`"ab"` carries different display forms (`"AB"` vs `"ab"`). -/
theorem add_candidates_keyword_order_dependent :
    ([obsUpperAB, obsLowerAB]).Perm ([obsLowerAB, obsUpperAB]) ∧
      Option.map CandidateAccumulator.keyword
          (add_candidates ([obsUpperAB, obsLowerAB]) emptyCandidateMap (['a', 'b'])) =
        some (['A', 'B']) ∧
      Option.map CandidateAccumulator.keyword
          (add_candidates ([obsLowerAB, obsUpperAB]) emptyCandidateMap (['a', 'b'])) =
        some (['a', 'b']) :=
  ⟨List.Perm.swap _ _ _, by decide, by decide⟩

theorem add_candidates_comm_witness :
    ([obsUpperAB, obsLowerAB]).Perm ([obsLowerAB, obsUpperAB]) ∧
      MapEquiv (add_candidates ([obsUpperAB, obsLowerAB]) emptyCandidateMap)
        (add_candidates ([obsLowerAB, obsUpperAB]) emptyCandidateMap) :=
  ⟨List.Perm.swap _ _ _, add_candidates_comm (List.Perm.swap _ _ _)⟩

/-! ## Sustained-trend fetch loop (`engine._collect_sustained_trend_signals`)

Only the control flow of the timeseries-fetch loop is modelled: each selected
candidate's `fetch_google_trends_timeseries` call either raises (`failure`)
or returns a value list (`success`).  The body after a successful fetch never
touches the failure counter. -/

inductive FetchOutcome where
  | failure
  | success (values : List ℤ)
deriving DecidableEq

/-- Observable control-flow outcome of the loop: how many candidates had a
fetch attempted, how many warnings were appended, and whether the
"disabled for remaining candidates" warning was emitted (the loop `break`). -/
structure SustainedRunResult where
  attempted : Nat
  warnings : Nat
  disabled : Bool
deriving DecidableEq

/-- The fetch loop of `_collect_sustained_trend_signals`, starting from a
given value of the Python local `failure_count`. -/
def sustainedLoop (failureCount : Nat) : List FetchOutcome → SustainedRunResult
  | [] => { attempted := 0, warnings := 0, disabled := false }
  | o :: rest =>
    match o with
    | .failure =>
      if MAX_SUSTAINED_TREND_FETCH_FAILURES ≤ failureCount + 1 then
        { attempted := 1, warnings := 2, disabled := true }
      else
        { attempted := (sustainedLoop (failureCount + 1) rest).attempted + 1
          warnings := (sustainedLoop (failureCount + 1) rest).warnings + 1
          disabled := (sustainedLoop (failureCount + 1) rest).disabled }
    | .success _ =>
      { attempted := (sustainedLoop failureCount rest).attempted + 1
        warnings := (sustainedLoop failureCount rest).warnings
        disabled := (sustainedLoop failureCount rest).disabled }

/-- Whether two consecutive fetch failures occur in the outcome sequence. -/
def hasConsecutiveFailures : List FetchOutcome → Bool
  | .failure :: .failure :: _ => true
  | _ :: rest => hasConsecutiveFailures rest
  | [] => false

/-- Number of fetch failures in the outcome sequence. -/
def failureCountOf (l : List FetchOutcome) : Nat :=
  l.countP (fun o => o = FetchOutcome.failure)

/-- C2 counterexample: with outcomes fail, success, fail, success there are
no two consecutive failures and a success separates the two failures, yet the
code disables timeseries collection (emits the disable warning and stops
before attempting the fourth candidate): the failure counter is cumulative,
never reset by a success. -/
theorem sustainedLoop_disables_without_consecutive_failures :
    hasConsecutiveFailures
        ([FetchOutcome.failure, FetchOutcome.success [], FetchOutcome.failure,
          FetchOutcome.success []]) = false ∧
      (sustainedLoop 0
        ([FetchOutcome.failure, FetchOutcome.success [], FetchOutcome.failure,
          FetchOutcome.success []])).disabled = true ∧
      (sustainedLoop 0
        ([FetchOutcome.failure, FetchOutcome.success [], FetchOutcome.failure,
          FetchOutcome.success []])).attempted = 3 := by
  refine ⟨by decide, by decide, by decide⟩

theorem sustainedLoop_general (l : List FetchOutcome) :
    ∀ failureCount : Nat,
      failureCount + 1 < MAX_SUSTAINED_TREND_FETCH_FAILURES + 1 →
      (((sustainedLoop failureCount l).disabled = true ↔
        MAX_SUSTAINED_TREND_FETCH_FAILURES ≤ failureCount + failureCountOf l) ∧
      ((sustainedLoop failureCount l).disabled = true ∨
        (sustainedLoop failureCount l).attempted = l.length)) := by
  induction l with
  | nil =>
    intro fc hfc
    simp [sustainedLoop, failureCountOf, MAX_SUSTAINED_TREND_FETCH_FAILURES] at hfc ⊢
    omega
  | cons o rest ih =>
    intro fc hfc
    cases o with
    | failure =>
      rw [show failureCountOf (FetchOutcome.failure :: rest) =
          failureCountOf rest + 1 from by simp [failureCountOf]]
      by_cases hb : MAX_SUSTAINED_TREND_FETCH_FAILURES ≤ fc + 1
      · rw [show sustainedLoop fc (FetchOutcome.failure :: rest) =
            { attempted := 1, warnings := 2, disabled := true } from by
          rw [sustainedLoop]; rw [if_pos hb]]
        simp only []
        constructor
        · simp only [MAX_SUSTAINED_TREND_FETCH_FAILURES] at hb ⊢
          constructor
          · intro _; omega
          · intro _; trivial
        · exact Or.inl (by trivial)
      · rw [show sustainedLoop fc (FetchOutcome.failure :: rest) =
            { attempted := (sustainedLoop (fc + 1) rest).attempted + 1
              warnings := (sustainedLoop (fc + 1) rest).warnings + 1
              disabled := (sustainedLoop (fc + 1) rest).disabled } from by
          rw [sustainedLoop]; rw [if_neg hb]]
        have hrec := ih (fc + 1) (by
          simp only [MAX_SUSTAINED_TREND_FETCH_FAILURES] at hb ⊢; omega)
        simp only [] at hrec ⊢
        constructor
        · rw [hrec.1]
          simp only [MAX_SUSTAINED_TREND_FETCH_FAILURES]
          omega
        · rcases hrec.2 with h | h
          · exact Or.inl h
          · right; rw [h, List.length_cons]
    | success vs =>
      rw [show failureCountOf (FetchOutcome.success vs :: rest) =
          failureCountOf rest from by simp [failureCountOf]]
      rw [show sustainedLoop fc (FetchOutcome.success vs :: rest) =
          { attempted := (sustainedLoop fc rest).attempted + 1
            warnings := (sustainedLoop fc rest).warnings
            disabled := (sustainedLoop fc rest).disabled } from by
        rw [sustainedLoop]]
      have hrec := ih fc hfc
      simp only [] at hrec ⊢
      constructor
      · exact hrec.1
      · rcases hrec.2 with h | h
        · exact Or.inl h
        · right; rw [h, List.length_cons]

/-- C2 (amended): timeseries collection is disabled (with the single extra
warning, stopping before the remaining candidates) exactly when the
cumulative — not consecutive — number of fetch failures reaches 2; a success
between two failures does not prevent disabling, because the failure counter
is never reset.  Absent disabling, every selected candidate is attempted. -/
theorem sustainedLoop_disables_iff_two_cumulative_failures (l : List FetchOutcome) :
    ((sustainedLoop 0 l).disabled = true ↔ 2 ≤ failureCountOf l) ∧
      ((sustainedLoop 0 l).disabled = true ∨
        (sustainedLoop 0 l).attempted = l.length) := by
  have h := sustainedLoop_general l 0 (by
    simp [MAX_SUSTAINED_TREND_FETCH_FAILURES])
  rw [show MAX_SUSTAINED_TREND_FETCH_FAILURES = 2 from rfl] at h
  simpa using h

/-! ## Exclusion filter (`engine._is_excluded`) -/

/-- Characters matched by `engine._TOKEN_RE` (`[a-z0-9]+`). -/
def isTokenChar (c : Char) : Bool :=
  ('a' ≤ c && c ≤ 'z') || ('0' ≤ c && c ≤ '9')

/-- `re.findall(r"[a-z0-9]+", ·)`: the maximal runs of token characters, in
order.  `current` accumulates the (reversed) run in progress. -/
def tokensOfAux (current : List Char) : List Char → List (List Char)
  | [] => if current = [] then [] else [current.reverse]
  | c :: rest =>
    if isTokenChar c then tokensOfAux (c :: current) rest
    else if current = [] then tokensOfAux [] rest
    else current.reverse :: tokensOfAux [] rest

def tokensOf (l : List Char) : List (List Char) := tokensOfAux [] l

example : tokensOf (['a', 'b', '-', '3', ' ', 'z']) =
    ([['a', 'b'], ['3'], ['z']]) := by decide

/-- `engine._is_excluded`.  `excluded_keywords` is a Python `set[str]`,
modelled as a list used only through membership and iteration; `any` makes
the result independent of iteration order.  Set subset on token sets is
`∀ t ∈ toks₁, t ∈ toks₂`. -/
def is_excluded (keyword : List Char) (excluded_keywords : List (List Char)) : Bool :=
  if excluded_keywords.isEmpty then false
  else if keyword.map Char.toLower ∈ excluded_keywords then true
  else
    excluded_keywords.any (fun excluded =>
      isSubstring excluded (keyword.map Char.toLower) ||
        (!(tokensOf excluded).isEmpty &&
          (tokensOf excluded).all
            (fun t => decide (t ∈ tokensOf (keyword.map Char.toLower)))))

/-- C3 counterexample: candidate `"mug"` is a substring of the exclusion
entry `"ceramic mug"`, so the claim says it must be excluded; the code checks
substring containment in only one direction (exclusion-in-candidate) and does
not exclude it. -/
theorem is_excluded_not_reverse_containment :
    isSubstring (['m', 'u', 'g'])
        (['c', 'e', 'r', 'a', 'm', 'i', 'c', ' ', 'm', 'u', 'g']) = true ∧
      is_excluded (['m', 'u', 'g'])
        ([['c', 'e', 'r', 'a', 'm', 'i', 'c', ' ', 'm', 'u', 'g']]) = false := by
  refine ⟨by decide, by decide⟩

theorem isSubstring_refl (l : List Char) : isSubstring l l = true := by
  rw [isSubstring]
  cases l with
  | nil => decide
  | cons c rest =>
    rw [List.any_eq_true]
    refine ⟨c :: rest, ?_, ?_⟩
    · rw [List.tails_cons]; exact List.mem_cons_self _ _
    · rw [List.isPrefixOf_iff_prefix]

/-- C3 (amended): a candidate is excluded iff some exclusion entry is a
substring of its lowercased keyword (this subsumes exact equality), or some
exclusion entry has a non-empty token set entirely contained in the
candidate's token set.  Containment of the candidate inside an exclusion
entry does **not** trigger exclusion: the code checks substring containment
in one direction only. -/
theorem is_excluded_iff (keyword : List Char)
    (excluded_keywords : List (List Char)) :
    is_excluded keyword excluded_keywords = true ↔
      ∃ excluded ∈ excluded_keywords,
        (isSubstring excluded (keyword.map Char.toLower) = true ∨
          (tokensOf excluded ≠ [] ∧
            ∀ t ∈ tokensOf excluded, t ∈ tokensOf (keyword.map Char.toLower))) := by
  rw [is_excluded]
  split_ifs with he hm
  · simp only [Bool.false_eq_true, false_iff]
    rw [List.isEmpty_iff] at he
    subst he
    simp
  · simp only [true_iff]
    exact ⟨keyword.map Char.toLower, hm, Or.inl (isSubstring_refl _)⟩
  · rw [List.any_eq_true]
    constructor
    · rintro ⟨e, hmem, hcond⟩
      rw [Bool.or_eq_true, Bool.and_eq_true] at hcond
      refine ⟨e, hmem, ?_⟩
      rcases hcond with h | ⟨h1, h2⟩
      · exact Or.inl h
      · right
        constructor
        · intro hnil
          rw [hnil] at h1
          simp at h1
        · intro t ht
          rw [List.all_eq_true] at h2
          exact of_decide_eq_true (h2 t ht)
    · rintro ⟨e, hmem, hcond⟩
      refine ⟨e, hmem, ?_⟩
      rw [Bool.or_eq_true, Bool.and_eq_true]
      rcases hcond with h | ⟨h1, h2⟩
      · exact Or.inl h
      · right
        constructor
        · cases htok : tokensOf e with
          | nil => exact absurd htok h1
          | cons a b => rfl
        · rw [List.all_eq_true]
          intro t ht
          exact decide_eq_true (h2 t ht)

/-! ## Marketplace scan circuit breaker
(`engine._scan_marketplaces_for_keyword`, `engine._should_disable_marketplace`)

Adapters are external collaborators; their behaviour is an oracle mapping a
keyword (an arbitrary type `α`) and a marketplace name to an outcome.  The
single Python loop threading the `marketplace_unavailable` dict is decomposed
into parallel recursions for the produced snapshots, for the updated dict,
and for the trace of adapter invocations; `updateUnavailable` is the common
dict update of one iteration. -/

/-- The marker list in `engine._should_disable_marketplace`. -/
def disableMarkers : List (List Char) :=
  [ "missing __next_data__ script".data,
    "missing api key".data,
    "http error 403".data,
    "http error 429".data,
    "precondition failed".data,
    "access denied".data,
    "pardon our interruption".data]

/-- `engine._should_disable_marketplace`. -/
def should_disable_marketplace (error_text : List Char) : Bool :=
  disableMarkers.any (fun marker => isSubstring marker (error_text.map Char.toLower))

/-- Outcome of one marketplace adapter call: a scan result, or a raised
error with the given text. -/
inductive AdapterOutcome where
  | ok (source_url : List Char) (total_results_estimate : Option ℤ)
      (sample_products : List (List Char))
  | err (text : List Char)
deriving DecidableEq

/-- `models.MarketplaceSnapshot` (the fields the scanner sets). -/
structure Snapshot (α : Type) where
  marketplace : String
  query : α
  source_url : List Char
  status : String
  total_results_estimate : Option ℤ
  sample_products : List (List Char)
  warning : Option (List Char)

/-- Dict lookup in `marketplace_unavailable`. -/
def lookupReason (m : String) : List (String × List Char) → Option (List Char)
  | [] => none
  | (k, v) :: rest => if m = k then some v else lookupReason m rest

/-- Whether a marketplace has a dedicated adapter branch in the scanner. -/
def isKnownMarketplace (m : String) : Prop :=
  m = "amazon" ∨ m = "walmart" ∨ m = "target"

instance (m : String) : Decidable (isKnownMarketplace m) := by
  rw [isKnownMarketplace]; infer_instance

/-- Whether an outcome is an error whose text matches a disable marker. -/
def outcomeDisables : AdapterOutcome → Bool
  | .ok _ _ _ => false
  | .err t => should_disable_marketplace t

/-- The error text of an outcome (irrelevant for `ok`). -/
def outcomeText : AdapterOutcome → List Char
  | .ok _ _ _ => []
  | .err t => t

/-- The update one loop iteration performs on `marketplace_unavailable`:
only a disabling error of a not-yet-disabled known marketplace adds an
entry. -/
def updateUnavailable {α : Type} (oracle : α → String → AdapterOutcome) (kw : α)
    (m : String) (unavailable : List (String × List Char)) :
    List (String × List Char) :=
  match lookupReason m unavailable with
  | some _ => unavailable
  | none =>
    if isKnownMarketplace m then
      if outcomeDisables (oracle kw m) then
        (m, outcomeText (oracle kw m)) :: unavailable
      else unavailable
    else unavailable

/-- The snapshot one loop iteration appends. -/
def snapshotFor {α : Type} (oracle : α → String → AdapterOutcome) (kw : α)
    (m : String) (unavailable : List (String × List Char)) : Snapshot α :=
  match lookupReason m unavailable with
  | some reason =>
    { marketplace := m, query := kw, source_url := [], status := "skipped",
      total_results_estimate := none, sample_products := [],
      warning := some reason }
  | none =>
    if isKnownMarketplace m then
      match oracle kw m with
      | .ok url total samples =>
        { marketplace := m, query := kw, source_url := url, status := "ok",
          total_results_estimate := total, sample_products := samples,
          warning := none }
      | .err t =>
        { marketplace := m, query := kw, source_url := [], status := "error",
          total_results_estimate := none, sample_products := [],
          warning := some t }
    else
      { marketplace := m, query := kw, source_url := [], status := "error",
        total_results_estimate := none, sample_products := [],
        warning := some ("Adapter not implemented.".data) }

/-- The snapshot list `_scan_marketplaces_for_keyword` returns for one
keyword. -/
def scanKeywordSnaps {α : Type} (oracle : α → String → AdapterOutcome) (kw : α) :
    List String → List (String × List Char) → List (Snapshot α)
  | [], _ => []
  | m :: rest, unavailable =>
    snapshotFor oracle kw m unavailable ::
      scanKeywordSnaps oracle kw rest (updateUnavailable oracle kw m unavailable)

/-- The `marketplace_unavailable` dict after one keyword's scan. -/
def scanKeywordUnavail {α : Type} (oracle : α → String → AdapterOutcome) (kw : α) :
    List String → List (String × List Char) → List (String × List Char)
  | [], unavailable => unavailable
  | m :: rest, unavailable =>
    scanKeywordUnavail oracle kw rest (updateUnavailable oracle kw m unavailable)

/-- The adapter invocations (keyword, marketplace) one keyword's scan
performs: none on a skipped or unknown marketplace, one otherwise. -/
def scanKeywordTrace {α : Type} (oracle : α → String → AdapterOutcome) (kw : α) :
    List String → List (String × List Char) → List (α × String)
  | [], _ => []
  | m :: rest, unavailable =>
    (match lookupReason m unavailable with
      | some _ => []
      | none => if isKnownMarketplace m then [(kw, m)] else []) ++
      scanKeywordTrace oracle kw rest (updateUnavailable oracle kw m unavailable)

/-- Snapshot lists of the whole run (the per-keyword loop in
`run_product_discovery`, which threads `marketplace_unavailable` through
`_scan_marketplaces_for_keyword`). -/
def scanRunSnaps {α : Type} (oracle : α → String → AdapterOutcome)
    (marketplaces : List String) :
    List α → List (String × List Char) → List (List (Snapshot α))
  | [], _ => []
  | kw :: rest, unavailable =>
    scanKeywordSnaps oracle kw marketplaces unavailable ::
      scanRunSnaps oracle marketplaces rest
        (scanKeywordUnavail oracle kw marketplaces unavailable)

/-- All adapter invocations of the whole run, in order. -/
def scanRunTrace {α : Type} (oracle : α → String → AdapterOutcome)
    (marketplaces : List String) :
    List α → List (String × List Char) → List (α × String)
  | [], _ => []
  | kw :: rest, unavailable =>
    scanKeywordTrace oracle kw marketplaces unavailable ++
      scanRunTrace oracle marketplaces rest
        (scanKeywordUnavail oracle kw marketplaces unavailable)

theorem lookupReason_updateUnavailable_of_some {α : Type}
    (oracle : α → String → AdapterOutcome) (kw : α) (m m' : String)
    {u : List (String × List Char)} {r : List Char}
    (h : lookupReason m u = some r) :
    lookupReason m (updateUnavailable oracle kw m' u) = some r := by
  rw [updateUnavailable]
  cases hl : lookupReason m' u with
  | some reason => exact h
  | none =>
    by_cases hK : isKnownMarketplace m'
    · rw [if_pos hK]
      by_cases hd : outcomeDisables (oracle kw m') = true
      · rw [if_pos hd, lookupReason]
        have hne : m ≠ m' := by
          intro he
          rw [he, hl] at h
          cases h
        rw [if_neg hne]
        exact h
      · rw [if_neg hd]; exact h
    · rw [if_neg hK]; exact h

theorem lookupReason_updateUnavailable_of_ne {α : Type}
    (oracle : α → String → AdapterOutcome) (kw : α) {m m' : String}
    (hne : m ≠ m') (u : List (String × List Char)) :
    lookupReason m (updateUnavailable oracle kw m' u) = lookupReason m u := by
  rw [updateUnavailable]
  cases hl : lookupReason m' u with
  | some reason => rfl
  | none =>
    by_cases hK : isKnownMarketplace m'
    · rw [if_pos hK]
      by_cases hd : outcomeDisables (oracle kw m') = true
      · rw [if_pos hd, lookupReason, if_neg hne]
      · rw [if_neg hd]
    · rw [if_neg hK]

theorem lookupReason_scanKeywordUnavail_of_some {α : Type}
    (oracle : α → String → AdapterOutcome) (kw : α) (m : String) (r : List Char) :
    ∀ (mks : List String) (u : List (String × List Char)),
      lookupReason m u = some r →
      lookupReason m (scanKeywordUnavail oracle kw mks u) = some r := by
  intro mks
  induction mks with
  | nil => intro u h; exact h
  | cons m' rest ih =>
    intro u h
    rw [scanKeywordUnavail]
    exact ih _ (lookupReason_updateUnavailable_of_some oracle kw m m' h)

theorem snapshotFor_marketplace {α : Type} (oracle : α → String → AdapterOutcome)
    (kw : α) (m' : String) (u : List (String × List Char)) :
    (snapshotFor oracle kw m' u).marketplace = m' := by
  rw [snapshotFor]
  cases lookupReason m' u with
  | some r => rfl
  | none =>
    by_cases hK : isKnownMarketplace m'
    · rw [if_pos hK]
      cases oracle kw m' <;> rfl
    · rw [if_neg hK]

theorem scanKeywordSnaps_skipped {α : Type} (oracle : α → String → AdapterOutcome)
    (kw : α) (m : String) (r : List Char) :
    ∀ (mks : List String) (u : List (String × List Char)),
      lookupReason m u = some r →
      ∀ s ∈ scanKeywordSnaps oracle kw mks u, s.marketplace = m →
        s.status = ("skipped") ∧ s.warning = some r := by
  intro mks
  induction mks with
  | nil => intro u _ s hs; rw [scanKeywordSnaps] at hs; cases hs
  | cons m' rest ih =>
    intro u h s hs hsm
    rw [scanKeywordSnaps] at hs
    rcases List.mem_cons.mp hs with rfl | hs'
    · have hm' : m' = m := by
        rw [← snapshotFor_marketplace oracle kw m' u]
        exact hsm
      subst hm'
      rw [snapshotFor, h]
      exact ⟨rfl, rfl⟩
    · exact ih _ (lookupReason_updateUnavailable_of_some oracle kw m m' h) s hs' hsm

theorem scanKeywordTrace_no_disabled {α : Type} (oracle : α → String → AdapterOutcome)
    (kw : α) (m : String) (r : List Char) :
    ∀ (mks : List String) (u : List (String × List Char)),
      lookupReason m u = some r →
      ∀ p ∈ scanKeywordTrace oracle kw mks u, p.2 ≠ m := by
  intro mks
  induction mks with
  | nil => intro u _ p hp; rw [scanKeywordTrace] at hp; cases hp
  | cons m' rest ih =>
    intro u h p hp
    rw [scanKeywordTrace] at hp
    rcases List.mem_append.mp hp with hp1 | hp2
    · cases hl : lookupReason m' u with
      | some reason => rw [hl] at hp1; cases hp1
      | none =>
        rw [hl] at hp1
        by_cases hK : isKnownMarketplace m'
        · rw [if_pos hK] at hp1
          rcases List.mem_singleton.mp hp1 with rfl
          intro he
          have hm : m' = m := he
          rw [hm, h] at hl
          cases hl
        · rw [if_neg hK] at hp1; cases hp1
    · exact ih _ (lookupReason_updateUnavailable_of_some oracle kw m m' h) p hp2

theorem scanRunSnaps_skipped {α : Type} (oracle : α → String → AdapterOutcome)
    (marketplaces : List String) (m : String) (r : List Char) :
    ∀ (kws : List α) (u : List (String × List Char)),
      lookupReason m u = some r →
      ∀ sl ∈ scanRunSnaps oracle marketplaces kws u, ∀ s ∈ sl,
        s.marketplace = m → s.status = ("skipped") ∧ s.warning = some r := by
  intro kws
  induction kws with
  | nil => intro u _ sl hsl; rw [scanRunSnaps] at hsl; cases hsl
  | cons kw rest ih =>
    intro u h sl hsl
    rw [scanRunSnaps] at hsl
    rcases List.mem_cons.mp hsl with rfl | hsl'
    · exact scanKeywordSnaps_skipped oracle kw m r marketplaces u h
    · exact ih _ (lookupReason_scanKeywordUnavail_of_some oracle kw m r marketplaces u h)
        sl hsl'

theorem scanRunTrace_no_disabled {α : Type} (oracle : α → String → AdapterOutcome)
    (marketplaces : List String) (m : String) (r : List Char) :
    ∀ (kws : List α) (u : List (String × List Char)),
      lookupReason m u = some r →
      ∀ p ∈ scanRunTrace oracle marketplaces kws u, p.2 ≠ m := by
  intro kws
  induction kws with
  | nil => intro u _ p hp; rw [scanRunTrace] at hp; cases hp
  | cons kw rest ih =>
    intro u h p hp
    rw [scanRunTrace] at hp
    rcases List.mem_append.mp hp with hp1 | hp2
    · exact scanKeywordTrace_no_disabled oracle kw m r marketplaces u h p hp1
    · exact ih _ (lookupReason_scanKeywordUnavail_of_some oracle kw m r marketplaces u h)
        p hp2

theorem scanKeyword_trigger {α : Type} (oracle : α → String → AdapterOutcome)
    (kw : α) (m : String) (t : List Char) (hK : isKnownMarketplace m)
    (herr : oracle kw m = AdapterOutcome.err t)
    (hdis : should_disable_marketplace t = true) :
    ∀ (mks : List String) (u : List (String × List Char)),
      m ∈ mks → lookupReason m u = none →
      lookupReason m (scanKeywordUnavail oracle kw mks u) = some t ∧
        List.filter (fun p => decide (p.2 = m))
          (scanKeywordTrace oracle kw mks u) = [(kw, m)] := by
  intro mks
  induction mks with
  | nil => intro u hmem; cases hmem
  | cons m' rest ih =>
    intro u hmem h0
    by_cases hmm : m' = m
    · subst hmm
      have hupd : updateUnavailable oracle kw m' u = (m', t) :: u := by
        rw [updateUnavailable, h0, if_pos hK, herr]
        rw [show outcomeDisables (AdapterOutcome.err t) =
          should_disable_marketplace t from rfl, hdis]
        rfl
      have hlook : lookupReason m' ((m', t) :: u) = some t := by
        rw [lookupReason, if_pos rfl]
      constructor
      · rw [scanKeywordUnavail, hupd]
        exact lookupReason_scanKeywordUnavail_of_some oracle kw m' t rest _ hlook
      · rw [scanKeywordTrace, h0, if_pos hK, hupd, List.filter_append]
        have hrest : List.filter (fun p => decide (p.2 = m'))
            (scanKeywordTrace oracle kw rest ((m', t) :: u)) = [] := by
          rw [List.filter_eq_nil_iff]
          intro p hp hdec
          exact scanKeywordTrace_no_disabled oracle kw m' t rest _ hlook p hp
            (of_decide_eq_true hdec)
        rw [hrest]
        simp
    · have hmem' : m ∈ rest := by
        rcases List.mem_cons.mp hmem with he | hr
        · exact absurd he.symm hmm
        · exact hr
      have hne : m ≠ m' := fun he => hmm he.symm
      have h0' : lookupReason m (updateUnavailable oracle kw m' u) = none := by
        rw [lookupReason_updateUnavailable_of_ne oracle kw hne u]
        exact h0
      constructor
      · rw [scanKeywordUnavail]
        exact (ih _ hmem' h0').1
      · rw [scanKeywordTrace, List.filter_append]
        have hhead : List.filter (fun p => decide (p.2 = m))
            (match lookupReason m' u with
              | some _ => ([] : List (α × String))
              | none => if isKnownMarketplace m' then [(kw, m')] else []) = [] := by
          cases hl : lookupReason m' u with
          | some reason => rfl
          | none =>
            by_cases hK' : isKnownMarketplace m'
            · rw [if_pos hK']
              simp [hmm]
            · rw [if_neg hK']; rfl
        rw [hhead, (ih _ hmem' h0').2]
        simp

/-- C8: once a marketplace adapter call raises an error whose text contains a
repeated-structure failure marker (e.g. "HTTP Error 429"), that marketplace
is disabled for every subsequent keyword of the run: each later snapshot for
it has status "skipped" and carries the disabling error text as its warning,
and the adapter for that marketplace is invoked exactly once in the whole
run — never again after the disabling call. -/
theorem marketplace_circuit_breaker {α : Type} (oracle : α → String → AdapterOutcome)
    (marketplaces : List String) (m : String) (t : List Char) (k0 : α)
    (kws : List α) (u : List (String × List Char))
    (hK : isKnownMarketplace m) (hmem : m ∈ marketplaces)
    (h0 : lookupReason m u = none)
    (herr : oracle k0 m = AdapterOutcome.err t)
    (hdis : should_disable_marketplace t = true) :
    (∀ sl ∈ (scanRunSnaps oracle marketplaces (k0 :: kws) u).tail,
        ∀ s ∈ sl, s.marketplace = m →
          s.status = ("skipped") ∧ s.warning = some t) ∧
      List.filter (fun p => decide (p.2 = m))
        (scanRunTrace oracle marketplaces (k0 :: kws) u) = [(k0, m)] := by
  have htr := scanKeyword_trigger oracle k0 m t hK herr hdis marketplaces u hmem h0
  constructor
  · rw [scanRunSnaps]
    simp only [List.tail_cons]
    exact scanRunSnaps_skipped oracle marketplaces m t kws _ htr.1
  · rw [scanRunTrace, List.filter_append, htr.2]
    have hrest : List.filter (fun p => decide (p.2 = m))
        (scanRunTrace oracle marketplaces kws
          (scanKeywordUnavail oracle k0 marketplaces u)) = [] := by
      rw [List.filter_eq_nil_iff]
      intro p hp hdec
      exact scanRunTrace_no_disabled oracle marketplaces m t kws _ htr.1 p hp
        (of_decide_eq_true hdec)
    rw [hrest]
    simp

theorem marketplace_circuit_breaker_witness :
    List.filter (fun p => decide (p.2 = ("amazon")))
      (scanRunTrace
        (fun (_ : Nat) (_ : String) => AdapterOutcome.err ("HTTP Error 429".data))
        (["amazon"]) ([0, 1]) []) = [(0, ("amazon"))] :=
  (marketplace_circuit_breaker
      (fun (_ : Nat) (_ : String) => AdapterOutcome.err ("HTTP Error 429".data))
      (["amazon"]) ("amazon") ("HTTP Error 429".data) 0 ([1]) []
      (Or.inl rfl) (List.mem_cons_self _ _) rfl rfl (by decide)).2

end ProductDiscovery
